import Mathlib

/-!
Verification of the ErusianTracker crawler (src/crawl.js, src/unnamed/part_000).

The repository stores four near-identical revisions of one pipeline:
two HTML-scraping variants and two JSON-API variants (the newest being
"ErusianTracker/3.6" in src/unnamed/part_000).  The definitions below are
shallow embeddings of the JavaScript functions of those files; JS strings are
modelled as Lean `String`s (code points instead of UTF-16 units), JS `null` /
`undefined` fields as `Option`, and JS truthiness of strings as the test
against the empty string.
-/

/-- JS whitespace test, restricted to the ASCII range actually produced by the
crawler (`\s` of the regexes used in the source). -/
def isJsWs (c : Char) : Bool :=
  c = ' ' || c = '\t' || c = '\n' || c = '\r' || c = '\x0b' || c = '\x0c'

/-- JS `a || b` on strings: the empty string is falsy. -/
def jsOr (a b : String) : String :=
  if a = "" then b else a

/-- JS `opt ?? ""` / truthy field access returning `""` when absent. -/
def optStr (o : Option String) : String :=
  o.getD ""

/-! ## Output records and the de-duplication step

`OutRecord` models the rows assembled by the JSON-API variants
(src/unnamed/part_000 lines 549-565); `HtmlRecord` the rows of the
HTML-scraping variants (src/crawl.js lines 256-264). -/

structure OutRecord where
  postUrl : String
  postTitle : Option String
  postId : Option String
  commentId : Option String
  topLevelCommentId : Option String
  commentUrl : Option String
  topLevelCommentUrl : Option String
  commentDateMs : Option Int
  likes : Int
  text : String
  deriving DecidableEq, Repr

structure HtmlRecord where
  postUrl : String
  postTitle : Option String
  postDateMs : Option Int
  commentDateMs : Option Int
  likes : Nat
  commentUrl : Option String
  text : String
  deriving DecidableEq, Repr

/-- De-duplication key of the JSON-API variants
(src/unnamed/part_000 line 582): `postUrl||commentId-or-empty||text.slice(0,200)`.
`r.commentId || ""` yields `""` both for `null` and for an empty id. -/
def dedupKey (r : OutRecord) : String :=
  r.postUrl ++ "||" ++ optStr r.commentId ++ "||" ++ r.text.take 200

/-- JS template interpolation of `r.commentDateMs || ""`: `null` and `0` are
falsy and print as the empty string, any other number via decimal notation. -/
def dateKeyPart (o : Option Int) : String :=
  match o with
  | none => ""
  | some n => if n = 0 then "" else toString n

/-- De-duplication key of the HTML-scraping variants
(src/crawl.js line 281): `postUrl||commentDateMs-or-empty||text.slice(0,200)`. -/
def htmlDedupKey (r : HtmlRecord) : String :=
  r.postUrl ++ "||" ++ dateKeyPart r.commentDateMs ++ "||" ++ r.text.take 200

/-- The de-dupe loop of the source (`seen` set plus output array), generic in
the key function; `seen` is the set of keys already encountered. -/
def dedupeFromBy (key : α → String) : List String → List α → List α
  | _, [] => []
  | seen, r :: rs =>
    if key r ∈ seen then dedupeFromBy key seen rs
    else r :: dedupeFromBy key (key r :: seen) rs

/-- The de-dupe loop started with an empty `seen` set
(src/unnamed/part_000 lines 579-586, src/crawl.js lines 608-616). -/
def dedupeBy (key : α → String) (l : List α) : List α :=
  dedupeFromBy key [] l

/-- Modelled from the spec: the incremental merge store feeds the previously
stored records followed by the newly fetched ones through the source's
de-dupe loop (no variant under src/ loads prior output; §4.7 of the spec
describes this merge). -/
def mergeRecords (existing new : List OutRecord) : List OutRecord :=
  dedupeBy dedupKey (existing ++ new)

/-- Spec-side description of de-duplication ("first occurrence under a key
wins"): keep each record and drop every later record with the same key. -/
def keepFirstBy (key : α → String) : List α → List α
  | [] => []
  | r :: rs => r :: keepFirstBy key (rs.filter (fun s => key s ≠ key r))
termination_by l => l.length
decreasing_by
  simp only [List.length_cons]
  exact Nat.lt_succ_of_le (List.length_filter_le _ _)

/-- Key of the claim's words applied to an HTML-variant record: such records
carry no `commentId` field, so the middle component is empty. -/
def claimHtmlKey (r : HtmlRecord) : String :=
  r.postUrl ++ "||" ++ "" ++ "||" ++ r.text.take 200

theorem keepFirstBy_cons (key : α → String) (r : α) (rs : List α) :
    keepFirstBy key (r :: rs) =
      r :: keepFirstBy key (rs.filter (fun s => key s ≠ key r)) := by
  rw [keepFirstBy.eq_def]

theorem dedupeFromBy_eq_keepFirstBy (key : α → String) :
    ∀ (l : List α) (seen : List String),
      dedupeFromBy key seen l =
        keepFirstBy key (l.filter (fun r => decide (key r ∉ seen)))
  | [], seen => by simp [dedupeFromBy, keepFirstBy]
  | r :: rs, seen => by
    by_cases h : key r ∈ seen
    · rw [dedupeFromBy, if_pos h, dedupeFromBy_eq_keepFirstBy key rs seen]
      congr 1
      simp [List.filter_cons, h]
    · have hfil : (r :: rs).filter (fun x => decide (key x ∉ seen)) =
          r :: rs.filter (fun x => decide (key x ∉ seen)) := by
        simp [List.filter_cons, h]
      rw [dedupeFromBy, if_neg h, dedupeFromBy_eq_keepFirstBy key rs (key r :: seen),
        hfil, keepFirstBy_cons]
      congr 1
      rw [List.filter_filter]
      congr 1
      apply List.filter_congr
      intro a _
      by_cases hk : key a = key r
      · simp [hk, List.mem_cons]
      · by_cases hs : key a ∈ seen <;> simp [hk, hs, List.mem_cons]

theorem dedupeBy_eq_keepFirstBy (key : α → String) (l : List α) :
    dedupeBy key l = keepFirstBy key l := by
  rw [dedupeBy, dedupeFromBy_eq_keepFirstBy]
  congr 1
  simp

/-- The concrete HTML-variant records of the counterexample: same post, same
text, different timestamps. -/
def cexHtmlR1 : HtmlRecord :=
  { postUrl := "https://example.com/p/a", postTitle := none, postDateMs := none,
    commentDateMs := some 1000, likes := 0, commentUrl := none, text := "same text" }

def cexHtmlR2 : HtmlRecord :=
  { postUrl := "https://example.com/p/a", postTitle := none, postDateMs := none,
    commentDateMs := some 2000, likes := 0, commentUrl := none, text := "same text" }

set_option maxRecDepth 4096 in
/-- C1 counterexample: in the HTML-scraping variant cited by the claim
(src/crawl.js lines 277-285) the de-dupe key uses `commentDateMs`, not
`commentId`.  Two records with equal keys in the claim's sense (no comment id,
identical post URL and text prefix) are BOTH kept, because their timestamps
differ. -/
theorem C1_counterexample :
    claimHtmlKey cexHtmlR1 = claimHtmlKey cexHtmlR2 ∧
      (dedupeBy htmlDedupKey [cexHtmlR1, cexHtmlR2]).length = 2 := by
  constructor
  · rfl
  · rfl

/-- C1 (amended): the JSON-API variants key by
`postUrl||commentId-or-empty||first-200-chars`, the HTML-scraping variants by
`postUrl||commentDateMs-or-empty||first-200-chars`; in both, only the first
occurrence of each key survives (so when a key occurs among existing and new
records, the existing record is retained). -/
theorem C1_dedupe_first_occurrence_wins :
    (∀ l : List OutRecord, dedupeBy dedupKey l = keepFirstBy dedupKey l) ∧
    (∀ l : List HtmlRecord, dedupeBy htmlDedupKey l = keepFirstBy htmlDedupKey l) ∧
    (∀ existing new : List OutRecord,
      mergeRecords existing new = keepFirstBy dedupKey (existing ++ new)) :=
  ⟨fun l => dedupeBy_eq_keepFirstBy _ l,
   fun l => dedupeBy_eq_keepFirstBy _ l,
   fun a b => dedupeBy_eq_keepFirstBy _ (a ++ b)⟩

/-! Lemmas for merge idempotence (C2). -/

/-- Keys recorded in the `seen` set after processing a list. -/
def seenAfter (key : α → String) : List String → List α → List String
  | seen, [] => seen
  | seen, r :: rs =>
    if key r ∈ seen then seenAfter key seen rs
    else seenAfter key (key r :: seen) rs

theorem mem_seenAfter (key : α → String) :
    ∀ (l : List α) (seen : List String) (k : String),
      k ∈ seenAfter key seen l ↔ k ∈ seen ∨ k ∈ l.map key
  | [], seen, k => by simp [seenAfter]
  | r :: rs, seen, k => by
    by_cases h : key r ∈ seen
    · rw [seenAfter, if_pos h, mem_seenAfter key rs seen k]
      simp only [List.map_cons, List.mem_cons]
      constructor
      · rintro (hs | hl)
        · exact Or.inl hs
        · exact Or.inr (Or.inr hl)
      · rintro (hs | hk | hl)
        · exact Or.inl hs
        · exact Or.inl (hk ▸ h)
        · exact Or.inr hl
    · rw [seenAfter, if_neg h, mem_seenAfter key rs _ k]
      simp only [List.mem_cons, List.map_cons]
      tauto

theorem dedupeFromBy_append (key : α → String) :
    ∀ (l₁ l₂ : List α) (seen : List String),
      dedupeFromBy key seen (l₁ ++ l₂) =
        dedupeFromBy key seen l₁ ++ dedupeFromBy key (seenAfter key seen l₁) l₂
  | [], l₂, seen => by simp [dedupeFromBy, seenAfter]
  | r :: rs, l₂, seen => by
    rw [List.cons_append]
    by_cases h : key r ∈ seen
    · rw [dedupeFromBy, if_pos h, dedupeFromBy, if_pos h, seenAfter, if_pos h]
      exact dedupeFromBy_append key rs l₂ seen
    · rw [dedupeFromBy, if_neg h, dedupeFromBy, if_neg h, seenAfter, if_neg h,
        dedupeFromBy_append key rs l₂ (key r :: seen), List.cons_append]

theorem dedupeFromBy_eq_nil (key : α → String) :
    ∀ (l : List α) (seen : List String),
      (∀ r ∈ l, key r ∈ seen) → dedupeFromBy key seen l = []
  | [], _, _ => rfl
  | r :: rs, seen, h => by
    rw [dedupeFromBy, if_pos (h r (List.mem_cons_self r rs))]
    exact dedupeFromBy_eq_nil key rs seen fun x hx => h x (List.mem_cons_of_mem _ hx)

theorem dedupeFromBy_idem (key : α → String) :
    ∀ (l : List α) (seen : List String),
      dedupeFromBy key seen (dedupeFromBy key seen l) = dedupeFromBy key seen l
  | [], seen => rfl
  | r :: rs, seen => by
    by_cases h : key r ∈ seen
    · rw [dedupeFromBy, if_pos h, dedupeFromBy_idem key rs seen]
    · rw [dedupeFromBy, if_neg h, dedupeFromBy, if_neg h,
        dedupeFromBy_idem key rs (key r :: seen)]

theorem mem_map_key_dedupeFromBy (key : α → String) :
    ∀ (l : List α) (seen : List String) (r : α),
      r ∈ l → key r ∉ seen → key r ∈ (dedupeFromBy key seen l).map key
  | [], _, _, hr, _ => absurd hr (List.not_mem_nil _)
  | x :: xs, seen, r, hr, hks => by
    by_cases h : key x ∈ seen
    · rw [dedupeFromBy, if_pos h]
      rcases List.mem_cons.mp hr with rfl | hr'
      · exact absurd h hks
      · exact mem_map_key_dedupeFromBy key xs seen r hr' hks
    · rw [dedupeFromBy, if_neg h]
      rcases List.mem_cons.mp hr with rfl | hr'
      · simp
      · by_cases hkx : key r = key x
        · simp [hkx]
        · simp only [List.map_cons, List.mem_cons]
          refine Or.inr (mem_map_key_dedupeFromBy key xs _ r hr' ?_)
          simp only [List.mem_cons, not_or]
          exact ⟨hkx, hks⟩

/-- C2: the merge/de-duplication step is idempotent:
`merge (merge A B) B = merge A B`. -/
theorem C2_merge_idempotent (A B : List OutRecord) :
    mergeRecords (mergeRecords A B) B = mergeRecords A B := by
  unfold mergeRecords dedupeBy
  rw [dedupeFromBy_append, dedupeFromBy_idem]
  have hB : dedupeFromBy dedupKey
      (seenAfter dedupKey [] (dedupeFromBy dedupKey [] (A ++ B))) B = [] := by
    apply dedupeFromBy_eq_nil
    intro r hr
    rw [mem_seenAfter]
    right
    exact mem_map_key_dedupeFromBy dedupKey (A ++ B) [] r
      (List.mem_append_right A hr) (List.not_mem_nil _)
  rw [hB, List.append_nil]

/-! ## Author matcher (src/unnamed/part_000 lines 312-314, 373-392, 536-541) -/

/-- Drop leading JS whitespace. -/
def trimStartL (l : List Char) : List Char :=
  l.dropWhile isJsWs

/-- Drop trailing JS whitespace. -/
def trimEndL (l : List Char) : List Char :=
  (l.reverse.dropWhile isJsWs).reverse

/-- JS `String.prototype.trim` (ASCII whitespace range). -/
def trimJs (s : String) : String :=
  String.mk (trimEndL (trimStartL s.data))

/-- One pass of `replace(/\s+/g, " ")`: the flag records whether the previous
character belonged to a whitespace run already replaced by one space. -/
def collapseWsAux : Bool → List Char → List Char
  | _, [] => []
  | inRun, c :: rest =>
    if isJsWs c then
      if inRun then collapseWsAux true rest
      else ' ' :: collapseWsAux true rest
    else c :: collapseWsAux false rest

/-- `normalizeTextOneLine` of the source: `s.replace(/\s+/g, " ").trim()`
(`s || ""` is the identity on the modelled string fields). -/
def normalizeTextOneLine (s : String) : String :=
  trimJs (String.mk (collapseWsAux false s.data))

/-- JS `String.prototype.toLowerCase`, ASCII range. -/
def toLowerJs (s : String) : String :=
  String.mk (s.data.map Char.toLower)

/-- `replace(/^@/, "")`: strip one leading at sign. -/
def stripLeadingAt (s : String) : String :=
  match s.data with
  | '@' :: rest => String.mk rest
  | _ => s

structure UserProfile where
  name : Option String
  deriving DecidableEq, Repr

structure SubstackUser where
  name : Option String
  handle : Option String
  username : Option String
  slug : Option String
  profile : Option UserProfile
  deriving DecidableEq, Repr

/-- The untyped comment payload, restricted to the fields the source reads. -/
structure Comment where
  user : Option SubstackUser
  user_name : Option String
  commenter_name : Option String
  name : Option String
  handle : Option String
  deriving DecidableEq, Repr

/-- `getAuthorName` (src/unnamed/part_000 lines 373-382): fallback chain of
truthy fields, defaulting to the empty string. -/
def getAuthorName (c : Comment) : String :=
  jsOr (optStr (c.user.bind (·.name)))
    (jsOr (optStr ((c.user.bind (·.profile)).bind (·.name)))
      (jsOr (optStr c.user_name)
        (jsOr (optStr c.commenter_name) (optStr c.name))))

/-- `getAuthorHandle` (src/unnamed/part_000 lines 384-392). -/
def getAuthorHandle (c : Comment) : String :=
  jsOr (optStr (c.user.bind (·.handle)))
    (jsOr (optStr (c.user.bind (·.username)))
      (jsOr (optStr (c.user.bind (·.slug))) (optStr c.handle)))

/-- Normalized handle as computed at the match site (line 538):
`normalizeTextOneLine(getAuthorHandle(c)).toLowerCase().replace(/^@/, "")`. -/
def normHandleOf (c : Comment) : String :=
  stripLeadingAt (toLowerJs (normalizeTextOneLine (getAuthorHandle c)))

/-- The match check of the crawl loop (src/unnamed/part_000 lines 536-540):
`name === wantedName || (handle && handle === wantedHandle)`. -/
def matchesAuthor (c : Comment) (wantedName wantedHandle : String) : Bool :=
  normalizeTextOneLine (getAuthorName c) == wantedName ||
    (normHandleOf c != "" && normHandleOf c == wantedHandle)

/-- A comment whose handle fields are all absent, so its normalized handle is
the empty string. -/
def cexComment : Comment :=
  { user := none, user_name := none, commenter_name := none,
    name := some "somebody else", handle := none }

/-- C4 counterexample: the matcher is NOT a plain disjunction of the two
equalities.  For a target identity whose normalized handle is empty (e.g.
USERNAME = "@") and a node with no handle field, the node's normalized handle
equals the target handle, yet the matcher answers false, because the source
guards the handle comparison with JS truthiness (`handle && ...`). -/
theorem C4_counterexample :
    normHandleOf cexComment = "" ∧
      matchesAuthor cexComment "Erusian" "" = false := by
  constructor
  · rfl
  · rfl

def janeUser : SubstackUser :=
  { name := some "Jane", handle := none, username := none, slug := none,
    profile := none }

def janeNameComment : Comment :=
  { user := some janeUser, user_name := none, commenter_name := none,
    name := none, handle := none }

def atJaneUser : SubstackUser :=
  { name := some "Someone", handle := some "@Jane", username := none,
    slug := none, profile := none }

def janeHandleComment : Comment :=
  { user := some atJaneUser, user_name := none, commenter_name := none,
    name := none, handle := none }

/-- C4 (amended): the matcher returns true iff the whitespace-collapsed,
trimmed display name equals the target name exactly (case-sensitively), or the
normalized handle (lower-cased, leading at sign stripped) is NON-EMPTY and
equals the target handle; display name "Jane" matches target "Jane" but not
"jane", handle "@Jane" matches target handle "jane". -/
theorem C4_author_matcher :
    (∀ (c : Comment) (wName wHandle : String),
      matchesAuthor c wName wHandle = true ↔
        (normalizeTextOneLine (getAuthorName c) = wName ∨
          (normHandleOf c ≠ "" ∧ normHandleOf c = wHandle))) ∧
    matchesAuthor janeNameComment "Jane" "nosuchhandle" = true ∧
    matchesAuthor janeNameComment "jane" "nosuchhandle" = false ∧
    matchesAuthor janeHandleComment "unrelated" "jane" = true := by
  refine ⟨fun c wName wHandle => ?_, by decide, by decide, by decide⟩
  simp [matchesAuthor, String.ext_iff]

/-! ## Dataset payload (src/unnamed/part_000 lines 588-594) -/

structure Payload where
  generatedAt : String
  substackUrl : String
  username : String
  count : Nat
  rows : List OutRecord
  deriving Repr

/-- The payload object literal of `crawl`: `count: deduped.length`,
`rows: deduped`. -/
def mkPayload (generatedAt substackUrl username : String)
    (deduped : List OutRecord) : Payload :=
  { generatedAt := generatedAt, substackUrl := substackUrl,
    username := username, count := deduped.length, rows := deduped }

/-- C10: in every persisted payload the `count` field equals the length of
`rows`, for every de-duplicated record list the crawl can produce. -/
theorem C10_count_matches_rows (generatedAt substackUrl username : String)
    (out : List OutRecord) :
    (mkPayload generatedAt substackUrl username (dedupeBy dedupKey out)).count =
      (mkPayload generatedAt substackUrl username (dedupeBy dedupKey out)).rows.length :=
  rfl

/-! ## Document lister (src/unnamed/part_000 lines 466-489) -/

/-- An item of the archive feed, restricted to the fields read by the lister. -/
structure ArcItem where
  canonical_url : Option String
  title : Option String
  deriving DecidableEq, Repr

structure PostRef where
  url : String
  title : Option String
  deriving DecidableEq, Repr

/-- JS `item?.title ? String(item.title) : null`. -/
def titleOf (o : Option String) : Option String :=
  match o with
  | some t => if t = "" then none else some t
  | none => none

/-- The inner `for (const item of chunk)` loop: skip items without a truthy
canonical URL, push the rest, break once `maxPosts` is reached. -/
def pushChunk (maxPosts : Nat) : List PostRef → List ArcItem → List PostRef
  | posts, [] => posts
  | posts, item :: rest =>
    match item.canonical_url with
    | none => pushChunk maxPosts posts rest
    | some u =>
      if u = "" then pushChunk maxPosts posts rest
      else
        let posts' := posts ++ [{ url := u, title := titleOf item.title }]
        if maxPosts ≤ posts'.length then posts' else pushChunk maxPosts posts' rest

/-- The pagination loop of `listPostsFromArchive`; `page` models the archive
endpoint (offset to returned chunk), `reqs` records every offset requested.
The JS loop has no step bound, so the embedding carries fuel and returns
`none` only when the fuel is exhausted. -/
def listPostsLoop (page : Nat → List ArcItem) (maxPosts : Nat) :
    Nat → Nat → List PostRef → List Nat → Option (List PostRef × List Nat)
  | 0, _, _, _ => none
  | fuel + 1, offset, posts, reqs =>
    if posts.length < maxPosts then
      let chunk := page offset
      if chunk.length = 0 then some (posts, reqs ++ [offset])
      else
        listPostsLoop page maxPosts fuel (offset + chunk.length)
          (pushChunk maxPosts posts chunk) (reqs ++ [offset])
    else some (posts, reqs)

/-- `listPostsFromArchive(baseUrl, maxPosts)` with the network abstracted to
`page` (the JSON returned for each offset). -/
def listPostsFromArchive (page : Nat → List ArcItem) (maxPosts : Nat)
    (fuel : Nat) : Option (List PostRef × List Nat) :=
  listPostsLoop page maxPosts fuel 0 [] []

/-- Twelve archive items with distinct canonical URLs. -/
def twelveItems (tag : String) : List ArcItem :=
  (List.range 12).map fun i =>
    { canonical_url := some (tag ++ toString i), title := none }

/-- The index of the claim's scenario: pages of sizes 12, 12 and 0. -/
def pages12120 : Nat → List ArcItem := fun offset =>
  if offset = 0 then twelveItems "https://example.com/p/a"
  else if offset = 12 then twelveItems "https://example.com/p/b"
  else []

theorem listPostsLoop_stop_reason (page : Nat → List ArcItem) (maxPosts : Nat) :
    ∀ (fuel offset : Nat) (posts : List PostRef) (reqs : List Nat)
      (ps : List PostRef) (rs : List Nat),
      listPostsLoop page maxPosts fuel offset posts reqs = some (ps, rs) →
      (∃ o ∈ rs, page o = []) ∨ maxPosts ≤ ps.length
  | 0, _, _, _, _, _, h => by simp [listPostsLoop] at h
  | fuel + 1, offset, posts, reqs, ps, rs, h => by
    rw [listPostsLoop] at h
    by_cases hlt : posts.length < maxPosts
    · rw [if_pos hlt] at h
      by_cases hchunk : (page offset).length = 0
      · rw [if_pos hchunk] at h
        obtain ⟨hps, hrs⟩ := Prod.mk.injEq .. ▸ Option.some.injEq .. ▸ h
        left
        refine ⟨offset, ?_, List.eq_nil_of_length_eq_zero hchunk⟩
        rw [← hrs]
        exact List.mem_append_right _ (List.mem_singleton_self _)
      · rw [if_neg hchunk] at h
        rcases listPostsLoop_stop_reason page maxPosts fuel _ _ _ _ _ h with
          ⟨o, ho, hpage⟩ | hlen
        · exact Or.inl ⟨o, ho, hpage⟩
        · exact Or.inr hlen
    · rw [if_neg hlt] at h
      obtain ⟨hps, _⟩ := Prod.mk.injEq .. ▸ Option.some.injEq .. ▸ h
      right
      rw [← hps]
      omega

/-- C5: pagination stops exactly on an empty page or on reaching the requested
count; on the claim's concrete index (pages of sizes 12, 12, 0, maxCount 100)
it yields exactly 24 documents, requests exactly the offsets 0, 12 and 24, and
never a fourth page. -/
theorem C5_pagination_termination :
    (∀ (page : Nat → List ArcItem) (maxPosts fuel : Nat)
      (ps : List PostRef) (rs : List Nat),
      listPostsFromArchive page maxPosts fuel = some (ps, rs) →
      (∃ o ∈ rs, page o = []) ∨ maxPosts ≤ ps.length) ∧
    (∃ ps : List PostRef,
      listPostsFromArchive pages12120 100 50 = some (ps, [0, 12, 24]) ∧
        ps.length = 24) := by
  constructor
  · intro page maxPosts fuel ps rs h
    exact listPostsLoop_stop_reason page maxPosts fuel 0 [] [] ps rs h
  · refine ⟨(listPostsFromArchive pages12120 100 50).get (by decide) |>.1, ?_, ?_⟩
    · decide
    · decide

/-- C5 witness: the general stop-reason statement applied to the concrete
scenario. -/
theorem C5_pagination_termination_witness :
    (∃ o ∈ [0, 12, 24], pages12120 o = []) ∨
      100 ≤ ((listPostsFromArchive pages12120 100 50).get (by decide)).1.length :=
  C5_pagination_termination.1 pages12120 100 50 _ [0, 12, 24] (by decide)

/-! ## Rate-limited fetcher (src/unnamed/part_000 lines 259-295) -/

/-- An HTTP response as far as `fetchWithRetry` inspects it. -/
structure HttpResp where
  status : Nat
  retryAfter : Option String
  deriving DecidableEq, Repr

/-- `Response.ok`: status in the 200-299 range. -/
def HttpResp.ok (r : HttpResp) : Bool :=
  200 ≤ r.status && r.status < 300

/-- Decimal reading of an all-digit string, as JS `Number` does on `/^\d+$/`
input. -/
def digitsToNat : Nat → List Char → Nat
  | acc, [] => acc
  | acc, c :: rest => digitsToNat (acc * 10 + (c.toNat - 48)) rest

/-- `retryAfter && /^\d+$/.test(retryAfter) ? Number(retryAfter) * 1000 : 0`:
an absent or non-integer header contributes no wait. -/
def retryAfterMsOf : Option String → Nat
  | none => 0
  | some s =>
    if s ≠ "" && s.data.all (·.isDigit) then digitsToNat 0 s.data * 1000 else 0

/-- `MAX_RETRIES` of the ErusianTracker/3.6 variant (10; the oldest variant in
src/crawl.js uses 8 with a 90s cap instead of the 120s cap below). -/
def MAX_RETRIES : Nat := 10

inductive FetchOutcome where
  | success (attempt : Nat)
  | fatal (status : Nat)
  | exhausted
  deriving DecidableEq, Repr

/-- The retry loop of `fetchWithRetry`; `resp` maps each attempt index to the
response received, `jit429`/`jit5xx` are the sampled jitters
(`Math.floor(Math.random() * 800)` resp. `* 600`), and the returned list
records every wait in milliseconds.  `fuel` counts the remaining loop
iterations (`attempt <= MAX_RETRIES`). -/
def fetchRetryLoop (resp : Nat → HttpResp) (jit429 jit5xx : Nat → Nat) :
    Nat → Nat → List Nat → FetchOutcome × List Nat
  | 0, _, waits => (.exhausted, waits)
  | fuel + 1, attempt, waits =>
    let r := resp attempt
    if r.ok then (.success attempt, waits)
    else if r.status = 429 then
      let backoffMs := min 120000 (1000 * 2 ^ attempt)
      let waitMs := max (retryAfterMsOf r.retryAfter) backoffMs + jit429 attempt
      fetchRetryLoop resp jit429 jit5xx fuel (attempt + 1) (waits ++ [waitMs])
    else if 500 ≤ r.status && r.status < 600 && attempt < MAX_RETRIES then
      let backoffMs := min 60000 (800 * 2 ^ attempt)
      fetchRetryLoop resp jit429 jit5xx fuel (attempt + 1)
        (waits ++ [backoffMs + jit5xx attempt])
    else (.fatal r.status, waits)

/-- `fetchWithRetry` abstracted over the network and the jitter samples:
attempts 0 through MAX_RETRIES, then `Retries exhausted`. -/
def fetchWithRetry (resp : Nat → HttpResp) (jit429 jit5xx : Nat → Nat) :
    FetchOutcome × List Nat :=
  fetchRetryLoop resp jit429 jit5xx (MAX_RETRIES + 1) 0 []

/-- The wait computed for a 429 received at a given attempt. -/
def wait429 (resp : Nat → HttpResp) (jit429 : Nat → Nat) (a : Nat) : Nat :=
  max (retryAfterMsOf (resp a).retryAfter) (min 120000 (1000 * 2 ^ a)) +
    jit429 a

theorem fetchRetryLoop_all429 (resp : Nat → HttpResp) (jit429 jit5xx : Nat → Nat) :
    ∀ (fuel attempt : Nat) (waits : List Nat),
      (∀ a, attempt ≤ a → a < attempt + fuel → (resp a).status = 429) →
      fetchRetryLoop resp jit429 jit5xx fuel attempt waits =
        (.exhausted,
          waits ++ (List.range fuel).map (fun k => wait429 resp jit429 (attempt + k)))
  | 0, attempt, waits, _ => by simp [fetchRetryLoop]
  | fuel + 1, attempt, waits, h => by
    have h0 : (resp attempt).status = 429 := h attempt le_rfl (by omega)
    have hok : (resp attempt).ok = false := by
      simp [HttpResp.ok, h0]
    rw [fetchRetryLoop]
    simp only [hok, Bool.false_eq_true, if_false, h0, if_pos rfl, if_true]
    rw [fetchRetryLoop_all429 resp jit429 jit5xx fuel (attempt + 1)
      (waits ++ [_]) (fun a ha hb => h a (by omega) (by omega))]
    rw [List.range_succ_eq_map, List.map_cons, List.map_map, List.append_assoc]
    simp only [List.singleton_append, Nat.add_zero]
    refine congrArg (Prod.mk FetchOutcome.exhausted) ?_
    refine congrArg (waits ++ ·) ?_
    refine congrArg₂ List.cons rfl ?_
    apply List.map_congr_left
    intro k _
    simp only [Function.comp_apply]
    congr 1
    omega

/-- C6: if every attempt is answered 429, each wait is
`max(RetryAfter seconds in ms, min(cap, 1000 * 2^attempt)) + jitter`, exactly
MAX_RETRIES + 1 = 11 attempts are made, and the fetcher ends in the
`Retries exhausted` error rather than returning a response. -/
theorem C6_retry_exhaustion (resp : Nat → HttpResp) (jit429 jit5xx : Nat → Nat)
    (h : ∀ a, a ≤ MAX_RETRIES → (resp a).status = 429) :
    fetchWithRetry resp jit429 jit5xx =
      (.exhausted, (List.range (MAX_RETRIES + 1)).map (wait429 resp jit429)) := by
  rw [fetchWithRetry, fetchRetryLoop_all429 resp jit429 jit5xx (MAX_RETRIES + 1) 0 []
    (fun a ha hb => h a (by omega))]
  simp

/-- A server that always answers 429 with a `Retry-After: 7` header. -/
def always429 : Nat → HttpResp := fun _ =>
  { status := 429, retryAfter := some "7" }

set_option maxRecDepth 10000 in
/-- C6 witness: on the always-429 server with zero jitter, the fetcher makes
11 attempts, waits `max(7000, min(120000, 1000 * 2^a))` each time, and ends
exhausted. -/
theorem C6_retry_exhaustion_witness :
    fetchWithRetry always429 (fun _ => 0) (fun _ => 0) =
      (.exhausted,
        [7000, 7000, 7000, 8000, 16000, 32000, 64000, 120000, 120000, 120000,
          120000]) := by
  rw [C6_retry_exhaustion always429 (fun _ => 0) (fun _ => 0)
    (fun a _ => rfl)]
  decide

/-! ## Thread flattener (src/unnamed/part_000 lines 427-443, 452-459) -/

/-- A raw comment node, restricted to the identifier fields and the five
nesting keys the source probes.  The JS arrays may also hold primitives,
which `flattenComments` skips; the typed embedding ranges over object nodes
only. -/
inductive RawNode where
  | mk (id comment_id commentId : Option String)
      (children replies responses thread comments : Option (List RawNode))

def RawNode.id : RawNode → Option String
  | .mk i _ _ _ _ _ _ _ => i

def RawNode.comment_id : RawNode → Option String
  | .mk _ i _ _ _ _ _ _ => i

def RawNode.commentId : RawNode → Option String
  | .mk _ _ i _ _ _ _ _ => i

def RawNode.children : RawNode → Option (List RawNode)
  | .mk _ _ _ c _ _ _ _ => c

def RawNode.replies : RawNode → Option (List RawNode)
  | .mk _ _ _ _ r _ _ _ => r

def RawNode.responses : RawNode → Option (List RawNode)
  | .mk _ _ _ _ _ r _ _ => r

def RawNode.thread : RawNode → Option (List RawNode)
  | .mk _ _ _ _ _ _ t _ => t

def RawNode.comments : RawNode → Option (List RawNode)
  | .mk _ _ _ _ _ _ _ c => c

/-- `c.children || c.replies || c.responses || c.thread || c.comments || null`:
JS arrays are always truthy (an EMPTY array included), so the first PRESENT
field wins regardless of whether it is empty. -/
def kidsOf (c : RawNode) : Option (List RawNode) :=
  (c.children.orElse fun _ =>
    (c.replies.orElse fun _ =>
      (c.responses.orElse fun _ =>
        (c.thread.orElse fun _ => c.comments))))

theorem sizeOf_list_append {α : Type u} [SizeOf α] :
    ∀ l₁ l₂ : List α, sizeOf (l₁ ++ l₂) + 1 = sizeOf l₁ + sizeOf l₂
  | [], l₂ => by simp [List.nil_append]; omega
  | a :: l₁, l₂ => by
    have ih := sizeOf_list_append l₁ l₂
    simp only [List.cons_append, List.cons.sizeOf_spec]
    omega

theorem sizeOf_list_reverse {α : Type u} [SizeOf α] :
    ∀ l : List α, sizeOf l.reverse = sizeOf l
  | [] => rfl
  | a :: l => by
    have ih := sizeOf_list_reverse l
    have happ := sizeOf_list_append l.reverse [a]
    have hone : sizeOf ([a] : List α) = 2 + sizeOf a := by
      simp only [List.cons.sizeOf_spec, List.nil.sizeOf_spec]
      omega
    rw [List.reverse_cons]
    simp only [List.cons.sizeOf_spec]
    omega

theorem sizeOf_kidsOf {c : RawNode} {ks : List RawNode}
    (h : kidsOf c = some ks) : sizeOf ks < sizeOf c := by
  obtain ⟨i1, i2, i3, ch, rep, res, thr, com⟩ := c
  simp only [kidsOf, RawNode.children, RawNode.replies, RawNode.responses,
    RawNode.thread, RawNode.comments] at h
  rcases ch with _ | l1 <;> rcases rep with _ | l2 <;> rcases res with _ | l3 <;>
    rcases thr with _ | l4 <;> rcases com with _ | l5 <;>
    simp only [Option.orElse, Option.none_orElse, Option.some_orElse,
      Option.some.injEq, reduceCtorEq] at h <;>
    first
      | exact absurd h (by simp)
      | (subst h; simp only [RawNode.mk.sizeOf_spec, Option.some.sizeOf_spec]; omega)

/-- The stack update of one loop iteration: `if (Array.isArray(kids) &&
kids.length) for (const k of kids) stack.push(k)` — push the first present
child list when it is non-empty. -/
def pushKids (c : RawNode) (stack : List RawNode) : List RawNode :=
  match kidsOf c with
  | some ks => if ks.length = 0 then stack else ks.reverse ++ stack
  | none => stack

theorem pushKids_none {c : RawNode} (stack : List RawNode)
    (h : kidsOf c = none) : pushKids c stack = stack := by
  unfold pushKids
  rw [h]

theorem pushKids_some {c : RawNode} {ks : List RawNode} (stack : List RawNode)
    (h : kidsOf c = some ks) :
    pushKids c stack = if ks.length = 0 then stack else ks.reverse ++ stack := by
  unfold pushKids
  rw [h]

theorem sizeOf_pushKids (c : RawNode) (stack : List RawNode) :
    sizeOf (pushKids c stack) < 1 + sizeOf c + sizeOf stack := by
  rcases h : kidsOf c with _ | ks
  · rw [pushKids_none stack h]
    omega
  · rw [pushKids_some stack h]
    by_cases hl : ks.length = 0
    · simp only [if_pos hl]
      omega
    · simp only [if_neg hl]
      have h1 := sizeOf_list_append ks.reverse stack
      have h2 := sizeOf_list_reverse ks
      have h3 := sizeOf_kidsOf h
      omega

/-- The explicit-stack loop of `flattenComments`; the Lean list is the JS
stack read top-first (`pop` takes the head, pushing a child list appends its
reversal). -/
def flattenGo : List RawNode → List RawNode
  | [] => []
  | c :: stack => c :: flattenGo (pushKids c stack)
termination_by l => sizeOf l
decreasing_by
  have := sizeOf_pushKids c stack
  simp only [List.cons.sizeOf_spec]
  omega

/-- `flattenComments(nodeOrList)` on a list argument: the stack starts as a
copy of the list and is popped from the end. -/
def flattenComments (l : List RawNode) : List RawNode :=
  flattenGo l.reverse

theorem flattenGo_cons (c : RawNode) (stack : List RawNode) :
    flattenGo (c :: stack) = c :: flattenGo (pushKids c stack) := by
  rw [flattenGo.eq_def]

theorem mem_pushKids_of_mem {n : RawNode} {stack : List RawNode}
    (c : RawNode) (hn : n ∈ stack) : n ∈ pushKids c stack := by
  rcases h : kidsOf c with _ | ks
  · rw [pushKids_none stack h]
    exact hn
  · rw [pushKids_some stack h]
    by_cases hl : ks.length = 0
    · simpa [hl] using hn
    · simp only [if_neg hl]
      exact List.mem_append_right _ hn

theorem mem_flattenGo_of_mem_stack :
    ∀ (stack : List RawNode) (n : RawNode), n ∈ stack → n ∈ flattenGo stack
  | [], n, hn => absurd hn (List.not_mem_nil n)
  | c :: stack, n, hn => by
    rw [flattenGo_cons]
    rcases List.mem_cons.mp hn with rfl | hmem
    · exact List.mem_cons_self _ _
    · exact List.mem_cons_of_mem _
        (mem_flattenGo_of_mem_stack (pushKids c stack) n
          (mem_pushKids_of_mem c hmem))
termination_by stack _ _ => sizeOf stack
decreasing_by
  have := sizeOf_pushKids c stack
  simp only [List.cons.sizeOf_spec]
  omega

theorem kids_mem_flattenGo :
    ∀ (stack : List RawNode) (c : RawNode) (ks : List RawNode) (k : RawNode),
      c ∈ flattenGo stack → kidsOf c = some ks → k ∈ ks → k ∈ flattenGo stack
  | [], c, ks, k, hc, _, _ => by
    rw [flattenGo.eq_def] at hc
    exact absurd hc (List.not_mem_nil c)
  | c' :: stack, c, ks, k, hc, hkids, hk => by
    rw [flattenGo_cons] at hc ⊢
    rcases List.mem_cons.mp hc with rfl | hmem
    · apply List.mem_cons_of_mem
      apply mem_flattenGo_of_mem_stack
      have hne : ks.length ≠ 0 := by
        intro h0
        rw [List.length_eq_zero.mp h0] at hk
        exact absurd hk (List.not_mem_nil k)
      rw [pushKids_some stack hkids]
      simp only [if_neg hne]
      exact List.mem_append_left _ (List.mem_reverse.mpr hk)
    · exact List.mem_cons_of_mem _
        (kids_mem_flattenGo (pushKids c' stack) c ks k hmem hkids hk)
termination_by stack _ _ _ _ _ _ => sizeOf stack
decreasing_by
  have := sizeOf_pushKids c' stack
  simp only [List.cons.sizeOf_spec]
  omega

theorem flattenGo_nil : flattenGo [] = [] := by
  rw [flattenGo.eq_def]

/-- The claim's reading of the probe: the first NON-EMPTY child list among
the keys, skipping present-but-empty lists. -/
def nonEmptyList (o : Option (List RawNode)) : Option (List RawNode) :=
  match o with
  | some [] => none
  | some ks => some ks
  | none => none

def firstNonEmptyKids (c : RawNode) : Option (List RawNode) :=
  ((nonEmptyList c.children).orElse fun _ =>
    ((nonEmptyList c.replies).orElse fun _ =>
      ((nonEmptyList c.responses).orElse fun _ =>
        ((nonEmptyList c.thread).orElse fun _ => nonEmptyList c.comments))))

def cexChildNode : RawNode :=
  .mk (some "child") none none none none none none none

/-- A node carrying an empty `children` array next to a non-empty `replies`
array. -/
def cexParentNode : RawNode :=
  .mk (some "parent") none none (some []) (some [cexChildNode]) none none none

/-- C7 counterexample: the probe is by JS truthiness, and an empty array is
truthy.  For a node with `children: []` and `replies: [child]`, the first
non-empty child list is the replies, yet the flattener descends into nothing:
the child never appears in the output (output length stays 1). -/
theorem C7_counterexample :
    firstNonEmptyKids cexParentNode = some [cexChildNode] ∧
      (flattenComments [cexParentNode]).length = 1 := by
  constructor
  · rfl
  · have h1 : kidsOf cexParentNode = some [] := rfl
    rw [flattenComments, show ([cexParentNode]).reverse = [cexParentNode] from rfl,
      flattenGo_cons, pushKids_some _ h1]
    simp [flattenGo_nil]

/-- C7 (amended): the flattener probes children, replies, responses, thread,
comments in that order and takes the first PRESENT value (even an empty
array), descending only when that value is non-empty; every element of the
child list it descends into appears in the flattened output, and a node whose
children sit under exactly one of the five keys exposes exactly that list to
the probe. -/
theorem C7_flatten_children_included :
    (∀ (l : List RawNode) (c : RawNode) (ks : List RawNode) (k : RawNode),
      c ∈ flattenComments l → kidsOf c = some ks → k ∈ ks →
      k ∈ flattenComments l) ∧
    (∀ (i : Option String) (ks : List RawNode),
      kidsOf (.mk i none none (some ks) none none none none) = some ks ∧
      kidsOf (.mk i none none none (some ks) none none none) = some ks ∧
      kidsOf (.mk i none none none none (some ks) none none) = some ks ∧
      kidsOf (.mk i none none none none none (some ks) none) = some ks ∧
      kidsOf (.mk i none none none none none none (some ks)) = some ks) := by
  constructor
  · intro l c ks k hc hk hkk
    exact kids_mem_flattenGo l.reverse c ks k hc hk hkk
  · intro i ks
    exact ⟨rfl, rfl, rfl, rfl, rfl⟩

/-- A node whose children sit under `replies` only. -/
def wParentNode : RawNode :=
  .mk (some "p") none none none (some [cexChildNode]) none none none

/-- C7 witness: the membership property applied to a concrete one-child
thread. -/
theorem C7_flatten_children_included_witness :
    cexChildNode ∈ flattenComments [wParentNode] :=
  C7_flatten_children_included.1 [wParentNode] wParentNode [cexChildNode]
    cexChildNode
    (mem_flattenGo_of_mem_stack [wParentNode] wParentNode
      (List.mem_singleton_self _))
    rfl (List.mem_singleton_self _)

/-! ## Parent resolution (C3)

`getSpecificCommentId` is the source's canonical-id resolution
(src/unnamed/part_000 lines 452-454); the flattener's `parentOf` bookkeeping
and the bounded upward walk exist only in the spec (§4.4), no variant under
src/ builds them, so they are modelled from the spec's words. -/

/-- `c?.comment_id ?? c?.commentId ?? c?.id ?? null` — nullish coalescing,
so present-but-empty ids are kept. -/
def getSpecificCommentId (c : RawNode) : Option String :=
  (c.comment_id.orElse fun _ => (c.commentId.orElse fun _ => c.id))

/-- `c?.id ?? c?.comment_id ?? c?.commentId ?? null`
(src/unnamed/part_000 lines 456-459). -/
def getTopLevelCommentId (c : RawNode) : Option String :=
  (c.id.orElse fun _ => (c.comment_id.orElse fun _ => c.commentId))

/-- Modelled from the spec: record `parentOf[canonicalId] = parent` the first
time an id is seen, never overwriting later encounters. -/
def pmInsert (pm : List (String × Option String)) (i : String)
    (p : Option String) : List (String × Option String) :=
  if (pm.lookup i).isSome then pm else pm ++ [(i, p)]

/-- Modelled from the spec: the map update for a node whose canonical id may
be absent (no id, no entry). -/
def pmUpd (pm : List (String × Option String)) (cid : Option String)
    (par : Option String) : List (String × Option String) :=
  match cid with
  | some i => pmInsert pm i par
  | none => pm

/-- Stack update of the parent-tracking traversal: children are pushed
paired with their parent's canonical id. -/
def pushKidsWP (c : RawNode) (cid : Option String)
    (stack : List (RawNode × Option String)) : List (RawNode × Option String) :=
  match kidsOf c with
  | some ks =>
    if ks.length = 0 then stack else ks.reverse.map (fun k => (k, cid)) ++ stack
  | none => stack

/-- Total node size carried by a parent-tracking stack (a termination
measure, not part of the embedded program). -/
noncomputable def wpSize (l : List (RawNode × Option String)) : Nat :=
  (l.map fun p => sizeOf p.1).sum

theorem wpSize_cons (c : RawNode) (par : Option String)
    (stack : List (RawNode × Option String)) :
    wpSize ((c, par) :: stack) = sizeOf c + wpSize stack := by
  simp [wpSize]

theorem wpSize_append (l₁ l₂ : List (RawNode × Option String)) :
    wpSize (l₁ ++ l₂) = wpSize l₁ + wpSize l₂ := by
  simp [wpSize]

theorem sizeOf_RawNode_pos (c : RawNode) : 1 ≤ sizeOf c := by
  obtain ⟨i1, i2, i3, ch, rep, res, thr, com⟩ := c
  simp only [RawNode.mk.sizeOf_spec]
  omega

theorem sum_map_sizeOf_lt_sizeOf :
    ∀ ks : List RawNode, (ks.map sizeOf).sum < sizeOf ks
  | [] => by simp [List.nil.sizeOf_spec]
  | a :: l => by
    have ih := sum_map_sizeOf_lt_sizeOf l
    simp only [List.map_cons, List.sum_cons, List.cons.sizeOf_spec]
    omega

theorem wpSize_pushKidsWP (c : RawNode) (cid : Option String)
    (stack : List (RawNode × Option String)) :
    wpSize (pushKidsWP c cid stack) < sizeOf c + wpSize stack := by
  have hpos := sizeOf_RawNode_pos c
  rcases h : kidsOf c with _ | ks
  · have : pushKidsWP c cid stack = stack := by
      unfold pushKidsWP
      rw [h]
    rw [this]
    omega
  · have heq : pushKidsWP c cid stack =
        if ks.length = 0 then stack
        else ks.reverse.map (fun k => (k, cid)) ++ stack := by
      unfold pushKidsWP
      rw [h]
    rw [heq]
    by_cases hl : ks.length = 0
    · simp only [if_pos hl]
      omega
    · simp only [if_neg hl]
      rw [wpSize_append]
      have hmap : wpSize (ks.reverse.map fun k => (k, cid)) =
          (ks.map sizeOf).sum := by
        unfold wpSize
        rw [List.map_map, List.map_reverse, List.sum_reverse]
        congr 1
      have hlt := sum_map_sizeOf_lt_sizeOf ks
      have hks := sizeOf_kidsOf h
      omega

/-- Modelled from the spec: the thread flattener with parent-link
reconstruction — the same explicit-stack walk as `flattenComments`, but each
pushed child carries its parent's canonical id, and `parentOf` records
first-seen entries. -/
def flattenWPGo :
    List (RawNode × Option String) → List (String × Option String) →
      List RawNode × List (String × Option String)
  | [], pm => ([], pm)
  | (c, par) :: stack, pm =>
    (c :: (flattenWPGo (pushKidsWP c (getSpecificCommentId c) stack)
        (pmUpd pm (getSpecificCommentId c) par)).1,
      (flattenWPGo (pushKidsWP c (getSpecificCommentId c) stack)
        (pmUpd pm (getSpecificCommentId c) par)).2)
termination_by stack _ => wpSize stack
decreasing_by
  all_goals
    have := wpSize_pushKidsWP c (getSpecificCommentId c) stack
    rw [wpSize_cons c par stack]
    omega

/-- Modelled from the spec: `flatten(tree) -> (flat, parentOf)`; roots carry
a null parent. -/
def flattenWithParents (l : List RawNode) :
    List RawNode × List (String × Option String) :=
  flattenWPGo (l.reverse.map fun c => (c, none)) []

theorem flattenWPGo_nil (pm : List (String × Option String)) :
    flattenWPGo [] pm = ([], pm) := by
  rw [flattenWPGo.eq_def]

theorem flattenWPGo_cons (c : RawNode) (par : Option String)
    (stack : List (RawNode × Option String)) (pm : List (String × Option String)) :
    flattenWPGo ((c, par) :: stack) pm =
      (c :: (flattenWPGo (pushKidsWP c (getSpecificCommentId c) stack)
          (pmUpd pm (getSpecificCommentId c) par)).1,
        (flattenWPGo (pushKidsWP c (getSpecificCommentId c) stack)
          (pmUpd pm (getSpecificCommentId c) par)).2) := by
  rw [flattenWPGo.eq_def]

/-- Modelled from the spec: walk `parentOf` upward until an id with no (or a
null) parent entry is found, within the given fuel; exhausted fuel yields
`none` ("root unresolved").  The second component counts the parent-link
steps taken. -/
def rootWalkFuel (pm : List (String × Option String)) :
    Nat → String → Option String × Nat
  | 0, _ => (none, 0)
  | fuel + 1, i =>
    match pm.lookup i with
    | none => (some i, 0)
    | some none => (some i, 0)
    | some (some p) =>
      ((rootWalkFuel pm fuel p).1, (rootWalkFuel pm fuel p).2 + 1)

/-- The hard step ceiling of the spec's bounded walk. -/
def PARENT_WALK_CEILING : Nat := 500

/-- Modelled from the spec: thread-root resolution with the hard ceiling. -/
def resolveThreadRoot (pm : List (String × Option String)) (i : String) :
    Option String × Nat :=
  rootWalkFuel pm PARENT_WALK_CEILING i

theorem rootWalkFuel_steps_le (pm : List (String × Option String)) :
    ∀ (fuel : Nat) (i : String), (rootWalkFuel pm fuel i).2 ≤ fuel
  | 0, _ => Nat.le_refl 0
  | fuel + 1, i => by
    rw [rootWalkFuel]
    rcases pm.lookup i with _ | _ | p
    · exact Nat.zero_le _
    · exact Nat.zero_le _
    · have := rootWalkFuel_steps_le pm fuel p
      simpa using Nat.succ_le_succ this

theorem lookup_append_of_isSome {β : Type u} (l₁ l₂ : List (String × β))
    (j : String) (h : (l₁.lookup j).isSome = true) :
    (l₁ ++ l₂).lookup j = l₁.lookup j := by
  induction l₁ with
  | nil => simp [List.lookup] at h
  | cons kv l ih =>
    rcases kv with ⟨k, v⟩
    by_cases hk : j = k
    · simp [List.lookup, hk]
    · have hbeq : (j == k) = false := beq_false_of_ne hk
      simp only [List.cons_append, List.lookup, hbeq] at h ⊢
      exact ih h

theorem lookup_append_of_none {β : Type u} (l₁ l₂ : List (String × β))
    (j : String) (h : l₁.lookup j = none) :
    (l₁ ++ l₂).lookup j = l₂.lookup j := by
  induction l₁ with
  | nil => simp
  | cons kv l ih =>
    rcases kv with ⟨k, v⟩
    by_cases hk : j = k
    · simp [List.lookup, hk] at h
    · have hbeq : (j == k) = false := beq_false_of_ne hk
      simp only [List.cons_append, List.lookup, hbeq] at h ⊢
      exact ih h

theorem lookup_pmInsert_isSome (pm : List (String × Option String))
    (i j : String) (p : Option String) (h : (pm.lookup j).isSome = true) :
    ((pmInsert pm i p).lookup j).isSome = true := by
  unfold pmInsert
  by_cases hi : (pm.lookup i).isSome = true
  · rw [if_pos hi]
    exact h
  · rw [if_neg hi, lookup_append_of_isSome pm [(i, p)] j h]
    exact h

theorem lookup_pmUpd_isSome (pm : List (String × Option String))
    (cid : Option String) (par : Option String) (j : String)
    (h : (pm.lookup j).isSome = true) :
    ((pmUpd pm cid par).lookup j).isSome = true := by
  rcases cid with _ | i
  · exact h
  · exact lookup_pmInsert_isSome pm i j par h

theorem lookup_pmInsert_self (pm : List (String × Option String))
    (i : String) (p : Option String) :
    ((pmInsert pm i p).lookup i).isSome = true := by
  unfold pmInsert
  by_cases hi : (pm.lookup i).isSome = true
  · rw [if_pos hi]
    exact hi
  · rw [if_neg hi]
    have hnone : pm.lookup i = none := by
      rcases hlk : pm.lookup i with _ | v
      · rfl
      · rw [hlk] at hi
        simp at hi
    rw [lookup_append_of_none pm [(i, p)] i hnone]
    simp [List.lookup]

theorem flattenWPGo_pm_mono :
    ∀ (stack : List (RawNode × Option String))
      (pm : List (String × Option String)) (j : String),
      (pm.lookup j).isSome = true →
      ((flattenWPGo stack pm).2.lookup j).isSome = true
  | [], pm, j, h => by
    rw [flattenWPGo_nil]
    exact h
  | (c, par) :: stack, pm, j, h => by
    rw [flattenWPGo_cons]
    exact flattenWPGo_pm_mono (pushKidsWP c (getSpecificCommentId c) stack)
      (pmUpd pm (getSpecificCommentId c) par) j
      (lookup_pmUpd_isSome pm (getSpecificCommentId c) par j h)
termination_by stack _ _ _ => wpSize stack
decreasing_by
  have := wpSize_pushKidsWP c (getSpecificCommentId c) stack
  rw [wpSize_cons c par stack]
  omega

theorem flattenWPGo_covers :
    ∀ (stack : List (RawNode × Option String))
      (pm : List (String × Option String)) (c : RawNode) (i : String),
      c ∈ (flattenWPGo stack pm).1 → getSpecificCommentId c = some i →
      ((flattenWPGo stack pm).2.lookup i).isSome = true
  | [], pm, c, i, hc, _ => by
    rw [flattenWPGo_nil] at hc
    exact absurd hc (List.not_mem_nil c)
  | (c', par) :: stack, pm, c, i, hc, hid => by
    rw [flattenWPGo_cons] at hc ⊢
    rcases List.mem_cons.mp hc with rfl | hmem
    · have hpm : ((pmUpd pm (getSpecificCommentId c) par).lookup i).isSome = true := by
        rw [hid]
        exact lookup_pmInsert_self pm i par
      exact flattenWPGo_pm_mono
        (pushKidsWP c (getSpecificCommentId c) stack)
        (pmUpd pm (getSpecificCommentId c) par) i hpm
    · exact flattenWPGo_covers (pushKidsWP c' (getSpecificCommentId c') stack)
        (pmUpd pm (getSpecificCommentId c') par) c i hmem hid
termination_by stack _ _ _ _ _ => wpSize stack
decreasing_by
  all_goals
    have := wpSize_pushKidsWP c' (getSpecificCommentId c') stack
    rw [wpSize_cons c' par stack]
    omega

/-- A cyclic parent map (a points to b, b to a). -/
def cyclicPm : List (String × Option String) :=
  [("a", some "b"), ("b", some "a")]

set_option maxRecDepth 8192 in
/-- C3: the flattener-with-parents returns the flat sequence plus a parentOf
mapping covering every flattened node's resolved canonical id; walking
parentOf upward always terminates within the hard ceiling of 500 steps, and
on cyclic parent data the ceiling is exhausted yielding "root unresolved"
(`none`) instead of a failure. -/
theorem C3_parent_walk_bounded :
    (∀ (pm : List (String × Option String)) (i : String),
      (resolveThreadRoot pm i).2 ≤ PARENT_WALK_CEILING) ∧
    resolveThreadRoot cyclicPm "a" = (none, 500) ∧
    (∀ (l : List RawNode) (c : RawNode) (i : String),
      c ∈ (flattenWithParents l).1 → getSpecificCommentId c = some i →
      ((flattenWithParents l).2.lookup i).isSome = true) := by
  refine ⟨fun pm i => rootWalkFuel_steps_le pm PARENT_WALK_CEILING i, ?_, ?_⟩
  · decide
  · intro l c i hc hid
    exact flattenWPGo_covers (l.reverse.map fun c => (c, none)) [] c i hc hid

/-- A single root comment whose reply id is "x". -/
def wpNode : RawNode :=
  .mk none (some "x") none none none none none none

/-- C3 witness: the coverage statement applied to a concrete one-node tree
(and its parent entry found within the ceiling). -/
theorem C3_parent_walk_bounded_witness :
    ((flattenWithParents [wpNode]).2.lookup "x").isSome = true := by
  apply C3_parent_walk_bounded.2.2 [wpNode] wpNode "x"
  · show wpNode ∈ (flattenWPGo [(wpNode, none)] []).1
    rw [flattenWPGo_cons]
    exact List.mem_cons_self _ _
  · rfl

/-! ## Content normalizer (src/unnamed/part_000 lines 312-371) -/

/-- The tag-opening test `/[<][a-z!\/]/i`. -/
def hasTagPattern : List Char → Bool
  | [] => false
  | '<' :: c :: rest => (c.isAlpha || c = '!' || c = '/') || hasTagPattern (c :: rest)
  | _ :: rest => hasTagPattern rest

def isSpTab (c : Char) : Bool :=
  c = ' ' || c = '\t'

/-- One pass of `replace(/[ \t]+/g, " ")`. -/
def collapseSpTabAux : Bool → List Char → List Char
  | _, [] => []
  | inRun, c :: rest =>
    if isSpTab c then
      if inRun then collapseSpTabAux true rest
      else ' ' :: collapseSpTabAux true rest
    else c :: collapseSpTabAux false rest

/-- List-level `normalizeLine` (src/unnamed/part_000 lines 316-318):
`(line || "").replace(/[ \t]+/g, " ").trimEnd()`. -/
def normalizeLineL (l : List Char) : List Char :=
  trimEndL (collapseSpTabAux false l)

def normalizeLine (s : String) : String :=
  String.mk (normalizeLineL s.data)

/-- `String.prototype.split("\n")` on characters. -/
def splitNl : List Char → List (List Char)
  | [] => [[]]
  | c :: rest =>
    if c = '\n' then [] :: splitNl rest
    else
      match splitNl rest with
      | [] => [[c]]
      | l :: ls => (c :: l) :: ls

/-- `Array.prototype.join("\n")` on characters. -/
def joinNl : List (List Char) → List Char
  | [] => []
  | [l] => l
  | l :: ls => l ++ '\n' :: joinNl ls

/-- `Array.prototype.join("\n\n")` on characters. -/
def joinBlank : List (List Char) → List Char
  | [] => []
  | [l] => l
  | l :: ls => l ++ '\n' :: '\n' :: joinBlank ls

/-- One pass of `replace(/\n{3,}/g, "\n\n")`; the counter tracks how many
newlines of the current run have been emitted (capped at two). -/
def collapse3Aux : Nat → List Char → List Char
  | _, [] => []
  | seen, c :: rest =>
    if c = '\n' then
      if seen ≥ 2 then collapse3Aux seen rest
      else '\n' :: collapse3Aux (seen + 1) rest
    else c :: collapse3Aux 0 rest

def collapse3 (l : List Char) : List Char :=
  collapse3Aux 0 l

/-- One pass of `replace(/[ \t]+\n/g, "\n")`: spaces and tabs directly
preceding a newline (through further spaces and tabs) are dropped. -/
def stripWsBeforeNlAux : List Char → List Char × Bool
  | [] => ([], false)
  | c :: rest =>
    match stripWsBeforeNlAux rest with
    | (r, nl) =>
      if isSpTab c && nl then (r, nl)
      else (c :: r, c = '\n')

def stripWsBeforeNl (l : List Char) : List Char :=
  (stripWsBeforeNlAux l).1

/-- JS `trim` on character lists. -/
def trimJsL (l : List Char) : List Char :=
  trimEndL (trimStartL l)

/-- The plain-text branch (src/unnamed/part_000 lines 326-329):
`s.replace(/\r/g, "").split("\n").map(normalizeLine).join("\n")
  .replace(/\n{3,}/g, "\n\n").trim()`. -/
def plainBranch (s : String) : String :=
  String.mk
    (trimJsL (collapse3 (joinNl ((splitNl (s.data.filter (· ≠ '\r'))).map
      normalizeLineL))))

/-! The markup branch works on the parsed fragment; the external HTML parser
(`cheerio.load`) is abstracted as a function argument, and the DOM as a tree
of elements and text nodes. -/

inductive Dom where
  | text (s : String)
  | elem (tag : String) (children : List Dom)

mutual

/-- `root.find("br").replaceWith("\n")`. -/
def replaceBrs : Dom → Dom
  | .text s => .text s
  | .elem tag cs => if tag = "br" then .text "\n" else .elem tag (replaceBrsL cs)

def replaceBrsL : List Dom → List Dom
  | [] => []
  | d :: ds => replaceBrs d :: replaceBrsL ds

end

mutual

/-- `.text()` of cheerio: concatenation of all descendant text. -/
def domText : Dom → String
  | .text s => s
  | .elem _ cs => domTextL cs

def domTextL : List Dom → String
  | [] => ""
  | d :: ds => domText d ++ domTextL ds

end

/-- The quoted-block rendering (src/unnamed/part_000 lines 336-345): split
the block-quote's text into lines, collapse/trim each, drop empties, prefix
each with `> `, and wrap in blank lines. -/
def bqRender (raw : List Char) : List Char :=
  '\n' :: '\n' ::
    (joinNl ((((splitNl (raw.filter (· ≠ '\r'))).map
        (fun l => trimJsL (collapseSpTabAux false l))).filter
      (fun l => decide (l ≠ []))).map (fun l => '>' :: ' ' :: l))) ++ ['\n', '\n']

mutual

/-- `root.find("blockquote").each((_, bq) => { ...; $(bq).replaceWith(...) })`:
outer block-quotes are replaced by their rendered text (inner ones are gone
from the document once the outer is replaced). -/
def replaceBqs : Dom → Dom
  | .text s => .text s
  | .elem tag cs =>
    if tag = "blockquote" then .text (String.mk (bqRender (domTextL cs).data))
    else .elem tag (replaceBqsL cs)

def replaceBqsL : List Dom → List Dom
  | [] => []
  | d :: ds => replaceBqs d :: replaceBqsL ds

end

def isBlockTag (t : String) : Bool :=
  t = "p" || t = "li" || t = "h1" || t = "h2" || t = "h3" || t = "h4" ||
    t = "h5" || t = "h6"

mutual

/-- `root.find("p, li, h1, h2, h3, h4, h5, h6")`: all descendant block
elements in document order. -/
def collectBlocks : Dom → List Dom
  | .text _ => []
  | .elem tag cs =>
    (if isBlockTag tag then [Dom.elem tag cs] else []) ++ collectBlocksL cs

def collectBlocksL : List Dom → List Dom
  | [] => []
  | d :: ds => collectBlocks d ++ collectBlocksL ds

end

/-- Per-block cleanup (src/unnamed/part_000 lines 350-356): split the block's
text, collapse/trim each line, drop empties, re-join. -/
def blockCleaned (b : Dom) : List Char :=
  joinNl (((splitNl ((domText b).data.filter (· ≠ '\r'))).map
    (fun l => trimJsL (collapseSpTabAux false l))).filter
      (fun l => decide (l ≠ [])))

/-- The `out` array of the markup branch: block texts when block elements
exist, otherwise the whole-container fallback text. -/
def markupOut (frag2 : List Dom) : List (List Char) :=
  if (collectBlocksL frag2).length ≠ 0 then
    ((collectBlocksL frag2).map blockCleaned).filter (fun l => decide (l ≠ []))
  else
    if trimJsL (joinNl ((splitNl ((domTextL frag2).data.filter (· ≠ '\r'))).map
        (fun l => trimJsL (collapseSpTabAux false l)))) ≠ [] then
      [joinNl ((splitNl ((domTextL frag2).data.filter (· ≠ '\r'))).map
        (fun l => trimJsL (collapseSpTabAux false l)))]
    else []

/-- The markup branch (src/unnamed/part_000 lines 331-370) applied to the
parsed fragment: brs to newlines, block-quotes rendered, then either the
block elements' cleaned texts joined by blank lines, or the whole-container
fallback; final whitespace passes at the end. -/
def markupRender (frag : List Dom) : String :=
  String.mk
    (trimJsL (collapse3 (stripWsBeforeNl (joinBlank
      (markupOut (replaceBqsL (replaceBrsL frag)))))))

/-- `htmlToTextPreserveFormatting` (src/unnamed/part_000 lines 320-371),
with the HTML parser abstracted as `parse`. -/
def htmlToTextPreserveFormatting (parse : String → List Dom) (s : String) :
    String :=
  if s = "" then ""
  else if hasTagPattern s.data then markupRender (parse s)
  else plainBranch s

/-- A parse oracle for theorems that never reach the markup branch. -/
def noParse : String → List Dom := fun _ => []

set_option maxRecDepth 4096 in
/-- C8 counterexample: the plain-text branch also collapses INTERIOR runs of
spaces/tabs (`normalizeLine` applies `replace(/[ \t]+/g, " ")` to the whole
line), so on the tag-free input "a  b" — which has no trailing whitespace and
no blank lines — the output differs from the input. -/
theorem C8_counterexample :
    hasTagPattern ("a  b" : String).data = false ∧
      htmlToTextPreserveFormatting noParse "a  b" = "a b" ∧
      ("a b" : String) ≠ "a  b" := by
  refine ⟨by decide, by decide, by decide⟩

def c9Frag : List Dom :=
  [Dom.elem "p" [Dom.text "hi"], Dom.elem "blockquote" [Dom.text "quoted line"]]

set_option maxRecDepth 4096 in
/-- C9: a body that is nothing but a block-quote renders with the `> `
marker (fallback path), but as soon as a paragraph element is present the
re-inserted quoted text — a bare text node outside every block element — is
dropped entirely by the block-collection pass. -/
theorem C9_blockquote_dropped :
    markupRender [Dom.elem "blockquote" [Dom.text "quoted line"]] =
        "> quoted line" ∧
      markupRender c9Frag = "hi" := by
  refine ⟨by decide, by decide⟩

/-! ### Already-clean plain text (C8) -/

/-- A character a clean plain text may contain: not whitespace, or one of
the two canonical whitespace characters (space, newline). -/
def goodChar (c : Char) : Bool :=
  !(isJsWs c) || c = ' ' || c = '\n'

def headIsNl : List Char → Bool
  | [] => false
  | c :: _ => c = '\n'

/-- No double space, no space before a newline, no run of three newlines. -/
def cleanRuns : List Char → Bool
  | [] => true
  | [_] => true
  | c1 :: c2 :: rest =>
    !(c1 = ' ' && (c2 = ' ' || c2 = '\n')) &&
      !(c1 = '\n' && c2 = '\n' && headIsNl rest) &&
      cleanRuns (c2 :: rest)

def headOkay : List Char → Bool
  | [] => true
  | c :: _ => !(c = ' ' || c = '\n')

def lastOkay : List Char → Bool
  | [] => true
  | [c] => !(c = ' ' || c = '\n')
  | _ :: rest => lastOkay rest

/-- Clean plain text: canonical whitespace only, no collapsed-away runs, no
leading or trailing whitespace. -/
def cleanPlainText (s : String) : Bool :=
  s.data.all goodChar && cleanRuns s.data && headOkay s.data && lastOkay s.data

/-- No line of clean text ends in a space or holds a double space. -/
def lineClean : List Char → Bool
  | [] => true
  | [c] => !(c = ' ')
  | c1 :: c2 :: rest => !(c1 = ' ' && c2 = ' ') && lineClean (c2 :: rest)

theorem cleanRuns_cons {c : Char} {l : List Char}
    (h : cleanRuns (c :: l) = true) : cleanRuns l = true := by
  cases l with
  | nil => rfl
  | cons c2 rest =>
    simp only [cleanRuns, Bool.and_eq_true] at h
    tauto

theorem lineClean_cons {c : Char} {l : List Char}
    (h : lineClean (c :: l) = true) : lineClean l = true := by
  cases l with
  | nil => rfl
  | cons c2 rest =>
    simp only [lineClean, Bool.and_eq_true] at h
    exact h.2

theorem lineClean_getLast :
    ∀ (l : List Char), lineClean l = true → ∀ c, l.getLast? = some c → c ≠ ' '
  | [], _, c, hlast => by simp at hlast
  | [c1], h, c, hlast => by
    simp only [List.getLast?_singleton, Option.some.injEq] at hlast
    subst hlast
    simp only [lineClean] at h
    intro hc
    subst hc
    simp at h
  | c1 :: c2 :: rest, h, c, hlast => by
    have h2 := lineClean_cons h
    rw [List.getLast?_cons_cons] at hlast
    exact lineClean_getLast (c2 :: rest) h2 c hlast

theorem lastOkay_cons_of_ne_nil {c : Char} {l : List Char} (h : l ≠ []) :
    lastOkay (c :: l) = lastOkay l := by
  cases l with
  | nil => exact absurd rfl h
  | cons d rest => rfl

theorem lastOkay_getLast :
    ∀ (l : List Char), lastOkay l = true → ∀ c, l.getLast? = some c →
      c ≠ ' ' ∧ c ≠ '\n'
  | [], _, c, hlast => by simp at hlast
  | [c1], h, c, hlast => by
    simp only [List.getLast?_singleton, Option.some.injEq] at hlast
    subst hlast
    simp only [lastOkay, Bool.not_eq_true', Bool.or_eq_false_iff,
      decide_eq_false_iff_not] at h
    exact h
  | c1 :: c2 :: rest, h, c, hlast => by
    rw [lastOkay_cons_of_ne_nil (by simp)] at h
    rw [List.getLast?_cons_cons] at hlast
    exact lastOkay_getLast (c2 :: rest) h c hlast

theorem splitNl_ne_nil : ∀ l : List Char, splitNl l ≠ []
  | [] => by simp [splitNl]
  | c :: rest => by
    rw [splitNl]
    by_cases h : c = '\n'
    · simp [h]
    · rw [if_neg h]
      rcases hsp : splitNl rest with _ | ⟨l0, ls⟩
      · simp
      · simp

theorem splitNl_cons_of_ne {c : Char} {rest l0 : List Char}
    {ls : List (List Char)} (h : c ≠ '\n') (hsp : splitNl rest = l0 :: ls) :
    splitNl (c :: rest) = (c :: l0) :: ls := by
  rw [splitNl, if_neg h, hsp]

theorem splitNl_no_nl :
    ∀ (l : List Char) (line : List Char), line ∈ splitNl l → '\n' ∉ line
  | [], line, hline => by
    simp only [splitNl, List.mem_singleton] at hline
    subst hline
    exact List.not_mem_nil _
  | c :: rest, line, hline => by
    by_cases h : c = '\n'
    · rw [splitNl, if_pos h] at hline
      rcases List.mem_cons.mp hline with rfl | hmem
      · exact List.not_mem_nil _
      · exact splitNl_no_nl rest line hmem
    · rcases hsp : splitNl rest with _ | ⟨l0, ls⟩
      · exact absurd hsp (splitNl_ne_nil rest)
      · rw [splitNl_cons_of_ne h hsp] at hline
        rcases List.mem_cons.mp hline with rfl | hmem
        · intro hc
          rcases List.mem_cons.mp hc with hc | hc
          · exact h hc.symm
          · exact splitNl_no_nl rest l0 (hsp ▸ List.mem_cons_self l0 ls) hc
        · exact splitNl_no_nl rest line (hsp ▸ List.mem_cons_of_mem l0 hmem)

theorem splitNl_sub :
    ∀ (l : List Char) (line : List Char) (c : Char),
      line ∈ splitNl l → c ∈ line → c ∈ l
  | [], line, c, hline, hc => by
    simp only [splitNl, List.mem_singleton] at hline
    subst hline
    exact absurd hc (List.not_mem_nil c)
  | d :: rest, line, c, hline, hc => by
    by_cases h : d = '\n'
    · rw [splitNl, if_pos h] at hline
      rcases List.mem_cons.mp hline with rfl | hmem
      · exact absurd hc (List.not_mem_nil c)
      · exact List.mem_cons_of_mem d (splitNl_sub rest line c hmem hc)
    · rcases hsp : splitNl rest with _ | ⟨l0, ls⟩
      · exact absurd hsp (splitNl_ne_nil rest)
      · rw [splitNl_cons_of_ne h hsp] at hline
        rcases List.mem_cons.mp hline with rfl | hmem
        · rcases List.mem_cons.mp hc with rfl | hc0
          · exact List.mem_cons_self c rest
          · exact List.mem_cons_of_mem d
              (splitNl_sub rest l0 c (hsp ▸ List.mem_cons_self l0 ls) hc0)
        · exact List.mem_cons_of_mem d
            (splitNl_sub rest line c (hsp ▸ List.mem_cons_of_mem l0 hmem) hc)

theorem splitNl_lineClean :
    ∀ (l : List Char), cleanRuns l = true → lastOkay l = true →
      ∀ line ∈ splitNl l, lineClean line = true
  | [], _, _, line, hline => by
    simp only [splitNl, List.mem_singleton] at hline
    subst hline
    rfl
  | c :: rest, hruns, hlast, line, hline => by
    by_cases h : c = '\n'
    · rw [splitNl, if_pos h] at hline
      rcases List.mem_cons.mp hline with rfl | hmem
      · rfl
      · cases rest with
        | nil =>
          subst h
          simp [lastOkay] at hlast
        | cons d rest' =>
          exact splitNl_lineClean (d :: rest') (cleanRuns_cons hruns)
            (by rwa [lastOkay_cons_of_ne_nil (by simp)] at hlast) line hmem
    · rcases hsp : splitNl rest with _ | ⟨l0, ls⟩
      · exact absurd hsp (splitNl_ne_nil rest)
      · rw [splitNl_cons_of_ne h hsp] at hline
        rcases List.mem_cons.mp hline with rfl | hmem
        · -- line = c :: l0
          cases rest with
          | nil =>
            -- splitNl [] = [[]], so l0 = []
            simp only [splitNl, List.cons.injEq] at hsp
            obtain ⟨rfl, rfl⟩ := hsp
            simp only [lineClean, Bool.not_eq_true', decide_eq_false_iff_not]
            simp only [lastOkay, Bool.not_eq_true', Bool.or_eq_false_iff,
              decide_eq_false_iff_not] at hlast
            exact hlast.1
          | cons d rest' =>
            by_cases hd : d = '\n'
            · -- l0 = []
              subst hd
              rw [splitNl, if_pos rfl] at hsp
              obtain ⟨rfl, rfl⟩ := List.cons.injEq .. ▸ hsp
              simp only [lineClean, Bool.not_eq_true', decide_eq_false_iff_not]
              simp only [cleanRuns, Bool.and_eq_true, Bool.not_eq_true',
                Bool.and_eq_false_iff, Bool.or_eq_false_iff,
                decide_eq_false_iff_not] at hruns
              rcases hruns.1 with hc | hd'
              · exact hc
              · exact absurd trivial hd'.2
            · rcases hsp' : splitNl rest' with _ | ⟨l0', ls'⟩
              · exact absurd hsp' (splitNl_ne_nil rest')
              · rw [splitNl_cons_of_ne hd hsp'] at hsp
                obtain ⟨rfl, rfl⟩ := List.cons.injEq .. ▸ hsp
                have hdl : lineClean (d :: l0') = true :=
                  splitNl_lineClean (d :: rest') (cleanRuns_cons hruns)
                    (by rwa [lastOkay_cons_of_ne_nil (by simp)] at hlast)
                    (d :: l0') (by
                      rw [splitNl_cons_of_ne hd hsp']
                      exact List.mem_cons_self _ _)
                simp only [lineClean, Bool.and_eq_true, Bool.not_eq_true',
                  Bool.and_eq_false_iff, decide_eq_false_iff_not]
                refine ⟨?_, hdl⟩
                simp only [cleanRuns, Bool.and_eq_true, Bool.not_eq_true',
                  Bool.and_eq_false_iff, Bool.or_eq_false_iff,
                  decide_eq_false_iff_not] at hruns
                rcases hruns.1 with hc | hd'
                · exact Or.inl hc
                · exact Or.inr hd'.1
        · cases rest with
          | nil =>
            simp only [splitNl, List.cons.injEq] at hsp
            obtain ⟨rfl, rfl⟩ := hsp
            exact absurd hmem (List.not_mem_nil line)
          | cons d rest' =>
            exact splitNl_lineClean (d :: rest') (cleanRuns_cons hruns)
              (by rwa [lastOkay_cons_of_ne_nil (by simp)] at hlast)
              line (hsp ▸ List.mem_cons_of_mem l0 hmem)

theorem collapseSpTabAux_id :
    ∀ (line : List Char) (b : Bool),
      (∀ c ∈ line, c ≠ '\t') → lineClean line = true →
      (b = true → ∀ d, line.head? = some d → isSpTab d = false) →
      collapseSpTabAux b line = line
  | [], b, _, _, _ => rfl
  | c :: rest, b, htab, hclean, hhead => by
    by_cases hsp : isSpTab c = true
    · have hcs : c = ' ' := by
        have := htab c (List.mem_cons_self c rest)
        simp only [isSpTab, Bool.or_eq_true, decide_eq_true_eq] at hsp
        tauto
      cases b with
      | true => exact absurd (hhead rfl c rfl) (by simp [hsp])
      | false =>
        rw [collapseSpTabAux, if_pos hsp]
        simp only [Bool.false_eq_true, if_false]
        subst hcs
        congr 1
        apply collapseSpTabAux_id rest true
          (fun x hx => htab x (List.mem_cons_of_mem _ hx))
          (lineClean_cons hclean)
        intro _ d hd
        cases rest with
        | nil => simp at hd
        | cons e rest' =>
          simp only [List.head?_cons, Option.some.injEq] at hd
          subst hd
          simp only [lineClean, Bool.and_eq_true, Bool.not_eq_true',
            Bool.and_eq_false_iff, decide_eq_false_iff_not] at hclean
          have he : e ≠ ' ' := by
            rcases hclean.1 with hs | hs
            · exact absurd trivial hs
            · exact hs
          have ht := htab e (List.mem_cons_of_mem _ (List.mem_cons_self e rest'))
          simp only [isSpTab, Bool.or_eq_false_iff, decide_eq_false_iff_not]
          exact ⟨he, ht⟩
    · rw [collapseSpTabAux, if_neg hsp]
      congr 1
      exact collapseSpTabAux_id rest false
        (fun x hx => htab x (List.mem_cons_of_mem _ hx))
        (lineClean_cons hclean) (by simp)

theorem trimStartL_id {l : List Char}
    (h : ∀ c, l.head? = some c → isJsWs c = false) : trimStartL l = l := by
  cases l with
  | nil => rfl
  | cons c rest =>
    unfold trimStartL
    rw [List.dropWhile_cons, h c rfl]
    simp

theorem trimEndL_id {l : List Char}
    (h : ∀ c, l.getLast? = some c → isJsWs c = false) : trimEndL l = l := by
  unfold trimEndL
  rcases hrev : l.reverse with _ | ⟨c, t⟩
  · simp only [List.reverse_eq_nil_iff] at hrev
    subst hrev
    rfl
  · have hc : l.getLast? = some c := by
      rw [← List.head?_reverse, hrev]
      rfl
    rw [List.dropWhile_cons, h c hc]
    simp only [Bool.false_eq_true, if_false]
    rw [← hrev, List.reverse_reverse]

theorem cleanRuns_triple {rest' : List Char}
    (h : cleanRuns ('\n' :: '\n' :: rest') = true) : headIsNl rest' = false := by
  by_contra hne
  have hh : headIsNl rest' = true := by
    cases htest : headIsNl rest'
    · exact absurd htest hne
    · rfl
  simp [cleanRuns, hh] at h

theorem collapse3Aux_id :
    ∀ (l : List Char) (s : Nat), cleanRuns l = true →
      (s ≥ 2 → l.head? ≠ some '\n') →
      (s = 1 → l.head? = some '\n' → headIsNl l.tail = false) →
      collapse3Aux s l = l
  | [], _, _, _, _ => rfl
  | c :: rest, s, hruns, h2, h1 => by
    by_cases hc : c = '\n'
    · subst hc
      have hslt : ¬ s ≥ 2 := fun hge => h2 hge rfl
      rw [collapse3Aux, if_pos rfl, if_neg hslt]
      congr 1
      have hruns' := cleanRuns_cons hruns
      have hs01 : s = 0 ∨ s = 1 := by omega
      rcases hs01 with rfl | rfl
      · apply collapse3Aux_id rest 1 hruns' (by omega)
        intro _ hhead
        cases rest with
        | nil => simp at hhead
        | cons d rest' =>
          simp only [List.head?_cons, Option.some.injEq] at hhead
          subst hhead
          simp only [List.tail_cons]
          exact cleanRuns_triple hruns
      · have hh := h1 rfl rfl
        simp only [List.tail_cons] at hh
        apply collapse3Aux_id rest 2 hruns' ?_ (by omega)
        intro _
        cases rest with
        | nil => simp
        | cons d r2 =>
          intro hcon
          simp only [List.head?_cons, Option.some.injEq] at hcon
          subst hcon
          simp [headIsNl] at hh
    · rw [collapse3Aux, if_neg hc]
      congr 1
      exact collapse3Aux_id rest 0 (cleanRuns_cons hruns) (by omega)
        (fun h => absurd h (by decide))

theorem joinNl_cons_cons (a b : List Char) (ls : List (List Char)) :
    joinNl (a :: b :: ls) = a ++ '\n' :: joinNl (b :: ls) := rfl

theorem joinNl_singleton (a : List Char) : joinNl [a] = a := rfl

theorem joinNl_splitNl : ∀ l : List Char, joinNl (splitNl l) = l
  | [] => rfl
  | c :: rest => by
    have ih := joinNl_splitNl rest
    by_cases h : c = '\n'
    · rw [splitNl, if_pos h]
      rcases hsp : splitNl rest with _ | ⟨l0, ls⟩
      · exact absurd hsp (splitNl_ne_nil rest)
      · rw [hsp] at ih
        rw [joinNl_cons_cons, List.nil_append, ih, h]
    · rcases hsp : splitNl rest with _ | ⟨l0, ls⟩
      · exact absurd hsp (splitNl_ne_nil rest)
      · rw [hsp] at ih
        rw [splitNl_cons_of_ne h hsp]
        cases ls with
        | nil =>
          rw [joinNl_singleton]
          rw [joinNl_singleton] at ih
          rw [ih]
        | cons l1 ls' =>
          rw [joinNl_cons_cons, List.cons_append]
          rw [joinNl_cons_cons] at ih
          rw [ih]

theorem goodChar_not_ws {c : Char} (hg : goodChar c = true)
    (hsp : c ≠ ' ') (hnl : c ≠ '\n') : isJsWs c = false := by
  simp only [goodChar, Bool.or_eq_true, Bool.not_eq_true',
    decide_eq_true_eq] at hg
  rcases hg with (h | h) | h
  · exact h
  · exact absurd h hsp
  · exact absurd h hnl

theorem goodChar_not_tab {c : Char} (hg : goodChar c = true) : c ≠ '\t' := by
  intro hc
  subst hc
  exact absurd hg (by decide)

theorem goodChar_not_cr {c : Char} (hg : goodChar c = true) : c ≠ '\r' := by
  intro hc
  subst hc
  exact absurd hg (by decide)

theorem getLast?_mem {α : Type u} {l : List α} {c : α}
    (h : l.getLast? = some c) : c ∈ l := by
  have hrev : l.reverse.head? = some c := by
    rw [List.head?_reverse]
    exact h
  rcases hl : l.reverse with _ | ⟨d, t⟩
  · rw [hl] at hrev
    simp at hrev
  · rw [hl] at hrev
    simp only [List.head?_cons, Option.some.injEq] at hrev
    subst hrev
    rw [← List.mem_reverse, hl]
    exact List.mem_cons_self _ _

theorem normalizeLineL_id {line : List Char}
    (hgood : ∀ c ∈ line, goodChar c = true) (hnl : '\n' ∉ line)
    (hclean : lineClean line = true) : normalizeLineL line = line := by
  unfold normalizeLineL
  rw [collapseSpTabAux_id line false
    (fun c hc => goodChar_not_tab (hgood c hc)) hclean (by simp)]
  apply trimEndL_id
  intro c hlast
  have hcm : c ∈ line := getLast?_mem hlast
  apply goodChar_not_ws (hgood c hcm)
  · exact lineClean_getLast line hclean c hlast
  · intro hcc
    subst hcc
    exact hnl hcm

theorem head?_mem {α : Type u} {l : List α} {c : α}
    (h : l.head? = some c) : c ∈ l := by
  cases l with
  | nil => simp at h
  | cons d rest =>
    simp only [List.head?_cons, Option.some.injEq] at h
    subst h
    exact List.mem_cons_self _ _

theorem headOkay_head {l : List Char} (h : headOkay l = true) :
    ∀ c, l.head? = some c → c ≠ ' ' ∧ c ≠ '\n' := by
  cases l with
  | nil =>
    intro c hc
    simp at hc
  | cons d rest =>
    intro c hc
    simp only [List.head?_cons, Option.some.injEq] at hc
    subst hc
    simp only [headOkay, Bool.not_eq_true', Bool.or_eq_false_iff,
      decide_eq_false_iff_not] at h
    exact h

/-- C8 (amended): on tag-free input the normalizer removes carriage returns,
collapses every run of spaces/tabs (interior ones included) to one space,
strips trailing whitespace per line, collapses runs of three or more
newlines to two, and trims the whole; in particular it is the identity on
every already-clean plain text (canonical whitespace, no collapsible runs,
trimmed — a sufficient condition), and it never fails — the empty input
yields the empty string. -/
theorem C8_plain_text_no_op :
    (∀ (parse : String → List Dom) (s : String),
      hasTagPattern s.data = false → cleanPlainText s = true →
      htmlToTextPreserveFormatting parse s = s) ∧
    (∀ parse : String → List Dom, htmlToTextPreserveFormatting parse "" = "") := by
  constructor
  · intro parse s htag hclean
    by_cases hs : s = ""
    · subst hs
      rfl
    · unfold htmlToTextPreserveFormatting
      rw [if_neg hs, htag]
      simp only [Bool.false_eq_true, if_false]
      simp only [cleanPlainText, Bool.and_eq_true, List.all_eq_true] at hclean
      obtain ⟨⟨⟨hgood, hruns⟩, hhead⟩, hlast⟩ := hclean
      unfold plainBranch
      have hfil : s.data.filter (fun c => decide (c ≠ '\r')) = s.data := by
        rw [List.filter_eq_self]
        intro c hc
        simpa using goodChar_not_cr (hgood c hc)
      rw [hfil]
      have hmap : (splitNl s.data).map normalizeLineL = splitNl s.data := by
        conv_rhs => rw [← List.map_id (splitNl s.data)]
        apply List.map_congr_left
        intro line hline
        exact normalizeLineL_id
          (fun c hc => hgood c (splitNl_sub s.data line c hline hc))
          (splitNl_no_nl s.data line hline)
          (splitNl_lineClean s.data hruns hlast line hline)
      rw [hmap, joinNl_splitNl]
      have hcol : collapse3 s.data = s.data :=
        collapse3Aux_id s.data 0 hruns (by omega)
          (fun h => absurd h (by decide))
      
      rw [hcol]
      have h1 : trimStartL s.data = s.data := by
        apply trimStartL_id
        intro c hc
        obtain ⟨hsp, hnl⟩ := headOkay_head hhead c hc
        exact goodChar_not_ws (hgood c (head?_mem hc)) hsp hnl
      have h2 : trimEndL s.data = s.data := by
        apply trimEndL_id
        intro c hc
        obtain ⟨hsp, hnl⟩ := lastOkay_getLast s.data hlast c hc
        exact goodChar_not_ws (hgood c (getLast?_mem hc)) hsp hnl
      unfold trimJsL
      rw [h1, h2]
  · intro parse
    rfl

/-- C8 witness: the no-op statement applied to a concrete clean two-paragraph
text. -/
theorem C8_plain_text_no_op_witness :
    htmlToTextPreserveFormatting noParse "hello world\n\nnext paragraph" =
      "hello world\n\nnext paragraph" :=
  C8_plain_text_no_op.1 noParse "hello world\n\nnext paragraph"
    (by decide) (by decide)
